import Mathlib

/-!
# The mal runtime core (`mygo/mal/core.go`, `mygo/mal/printer.go`)

A shallow embedding of the value model, of the structural-equality comparator
`compareFunc`, of the primitives of the operation table `CoreNS` and of the printer
`PrString`, together with the properties of them that are proved here.

Go values of interface type `Type` are pointers to one of seven structs.  A call of a
primitive `func(args ...Type) (Type, error)` has three observable outcomes: it returns a
value, it returns an error, or it stops with a run-time panic (an index past the end of
`args`, or a field read through a nil pointer left by a failed type assertion).
-/

namespace Mal

/-! ## float64 -/

/-- An IEEE 754 binary64 datum, as its three bit fields. -/
structure F64 where
  sign : Bool
  exponent : Fin 2048
  fraction : Fin (2 ^ 52)
deriving DecidableEq, Repr

namespace F64

/-- All-ones exponent and a non-zero fraction. -/
def isNaN (x : F64) : Bool := x.exponent == 2047 && x.fraction != 0

/-- Positive or negative zero. -/
def isZero (x : F64) : Bool := x.exponent == 0 && x.fraction == 0

/-- Go's `==` on `float64`: a NaN is equal to nothing, the two zeros are equal to each
other, and otherwise two data are equal when their bits are. -/
def eq (x y : F64) : Bool :=
  !x.isNaN && !y.isNaN && (x == y || (x.isZero && y.isZero))

/-- The datum `0`. -/
def zero : F64 := ⟨false, 0, 0⟩

/-- The datum `-0`. -/
def negZero : F64 := ⟨true, 0, 0⟩

/-- The datum `1`. -/
def one : F64 := ⟨false, 1023, 0⟩

/-- The datum `2`. -/
def two : F64 := ⟨false, 1024, 0⟩

/-- The datum `3`. -/
def three : F64 := ⟨false, 1024, 2 ^ 51⟩

/-- A quiet NaN, as `0 / 0` gives. -/
def nan : F64 := ⟨true, 2047, 2 ^ 51⟩

end F64

/-! ## Values -/

/-- Modelled from the spec: the declarations of the seven structs that implement `Type`
(`Number`, `String`, `Symbol`, `Boolean`, `Nil`, `List`, `Function`) are not among the
source files; the spec's data model lists them as a closed set, and `core.go` fixes the
field each carries (`Value`, or `Fn` for a `Function`).  The callable held by a
`Function` is never run by the code embedded here, so it is kept as an identifier. -/
inductive Value where
  | Number (value : F64)
  | String (value : String)
  | Symbol (value : String)
  | Boolean (value : Bool)
  | Nil
  | List (value : List Value)
  | Function (fn : Nat)
deriving Repr

/-- The seven dynamic types `reflect.TypeOf` can report. -/
inductive Variant where
  | Number | String | Symbol | Boolean | Nil | List | Function
deriving DecidableEq, Repr

/-- The dynamic type of a value, `reflect.TypeOf`. -/
def Value.typeOf : Value → Variant
  | .Number _ => .Number
  | .String _ => .String
  | .Symbol _ => .Symbol
  | .Boolean _ => .Boolean
  | .Nil => .Nil
  | .List _ => .List
  | .Function _ => .Function

/-- What a call of a primitive does: `(v, nil)`, `(nil, err)`, or a run-time panic. -/
inductive Result where
  | ok (v : Value)
  | err (msg : String)
  | panic (msg : String)
deriving Repr

/-- The panic of a field read through a nil pointer. -/
def nilDeref : Result := .panic "invalid memory address or nil pointer dereference"

/-- The panic of `args[i]` with `i` not below `len(args)`. -/
def indexOutOfRange : Result := .panic "index out of range"

/-! ## compareFunc -/

mutual
/-- The body of `compareFunc` once `args[0]` and `args[1]` have been read.  A type
assertion `v2, _ := args[1].(*T)` that fails leaves `v2` nil, and the read of `v2.Value`
then panics.  The `default` case of the type switch has no counterpart: no value of the
seven variants reaches it. -/
def compareArgs : Value → Value → Result
  | a, b =>
    if a.typeOf != b.typeOf then .ok (.Boolean false)
    else
      match a with
      | .Symbol v =>
        match b with
        | .Symbol v2 => .ok (.Boolean (v == v2))
        | _ => nilDeref
      | .Number v =>
        match b with
        | .Number v2 => .ok (.Boolean (F64.eq v v2))
        | _ => nilDeref
      | .List v =>
        match b with
        | .List v2 =>
          if v.length != v2.length then .ok (.Boolean false)
          else compareLoop v v2
        | _ => nilDeref
      | .Boolean v =>
        match b with
        | .Boolean v2 => .ok (.Boolean (v == v2))
        | _ => nilDeref
      | .Nil => .ok (.Boolean true)
      | .Function _ => .ok (.Boolean false)
      | .String v =>
        match b with
        | .String v2 => .ok (.Boolean (v == v2))
        | _ => nilDeref
/-- The loop `for i := range v.Value` of the `*List` case, on what is left of `v.Value`
and of `v2.Value` from index `i` on.  The error of the recursive call is discarded and its
result is type-asserted to `*Boolean`, so a result that is not a Boolean leaves `rbool` nil
and the read of `rbool.Value` panics. -/
def compareLoop : List Value → List Value → Result
  | [], _ => .ok (.Boolean true)
  | _ :: _, [] => indexOutOfRange
  | x :: xs, y :: ys =>
    match compareArgs x y with
    | .ok (.Boolean rbool) =>
      if rbool == false then .ok (.Boolean false) else compareLoop xs ys
    | .panic msg => .panic msg
    | _ => nilDeref
end

/-- The comparator behind `=`. -/
def compareFunc (args : List Value) : Result :=
  match args with
  | a :: b :: _ => compareArgs a b
  | _ => indexOutOfRange

/-! ## What a value contains -/

mutual
/-- Whether a `Function` occurs in the value, at any depth. -/
def hasFunction : Value → Bool
  | .Function _ => true
  | .List vs => hasFunctionList vs
  | _ => false
/-- Whether a `Function` occurs in one of the values, at any depth. -/
def hasFunctionList : List Value → Bool
  | [] => false
  | v :: vs => hasFunction v || hasFunctionList vs
end

mutual
/-- Whether a `Number` holding a NaN occurs in the value, at any depth. -/
def hasNaN : Value → Bool
  | .Number v => v.isNaN
  | .List vs => hasNaNList vs
  | _ => false
/-- Whether a `Number` holding a NaN occurs in one of the values, at any depth. -/
def hasNaNList : List Value → Bool
  | [] => false
  | v :: vs => hasNaN v || hasNaNList vs
end

/-! ## Primitives of `CoreNS` -/

/-- The entry `+`; `fadd` is the host's `+` on `float64`.  Both arguments are read and
type-asserted before either field is read. -/
def CoreNS_add (fadd : F64 → F64 → F64) (args : List Value) : Result :=
  match args with
  | [] => indexOutOfRange
  | [_] => indexOutOfRange
  | a0 :: a1 :: _ =>
    match a0 with
    | .Number a =>
      match a1 with
      | .Number b => .ok (.Number (fadd a b))
      | _ => nilDeref
    | _ => nilDeref

/-- The entry `list`. -/
def CoreNS_list (args : List Value) : Result :=
  .ok (.List args)

/-- The entry `empty?`. -/
def CoreNS_emptyQ (args : List Value) : Result :=
  match args with
  | [] => indexOutOfRange
  | a0 :: _ =>
    match a0 with
    | .List lst =>
      if lst.length == 0 then .ok (.Boolean true) else .ok (.Boolean false)
    | _ => .ok (.Boolean false)

/-! ## More of float64 -/

namespace F64

/-- An infinity: all-ones exponent and a zero fraction. -/
def isInf (x : F64) : Bool := x.exponent == 2047 && x.fraction == 0

/-- The place of a datum that is not a NaN in the order of the values: exponent and
fraction read as one magnitude, negated under the sign bit.  Both zeros have key `0`. -/
def key (x : F64) : Int :=
  if x.sign then -((x.exponent.val : Int) * 2 ^ 52 + (x.fraction.val : Int))
  else (x.exponent.val : Int) * 2 ^ 52 + (x.fraction.val : Int)

/-- Go's `<` on `float64`; false when an operand is a NaN. -/
def lt (x y : F64) : Bool := !x.isNaN && !y.isNaN && decide (x.key < y.key)

/-- Go's `>` on `float64`; false when an operand is a NaN. -/
def gt (x y : F64) : Bool := !x.isNaN && !y.isNaN && decide (x.key > y.key)

/-- Go's `<=` on `float64`; false when an operand is a NaN. -/
def le (x y : F64) : Bool := !x.isNaN && !y.isNaN && decide (x.key ≤ y.key)

/-- Go's `>=` on `float64`; false when an operand is a NaN. -/
def ge (x y : F64) : Bool := !x.isNaN && !y.isNaN && decide (x.key ≥ y.key)

/-- The rational number a finite datum stands for: `±m * 2 ^ (e - 1075)`, with `m` the
fraction under its hidden bit and `e` the exponent field (`m` the bare fraction and
`e = 1` for a subnormal datum).  By the same formula an infinity counts as `±2 ^ 1024`,
beyond every finite datum. -/
def toRat (x : F64) : ℚ :=
  let m : Nat := if x.exponent.val = 0 then x.fraction.val else 2 ^ 52 + x.fraction.val
  let e : Nat := if x.exponent.val = 0 then 1 else x.exponent.val
  (if x.sign then -1 else 1) * ((m * 2 ^ (e - 1075) : Nat) : ℚ) / ((2 ^ (1075 - e) : Nat) : ℚ)

/-- The datum with the given sign bit, exponent field and fraction field. -/
def ofBits (s : Bool) (e f : Nat) : F64 :=
  ⟨s, ⟨e % 2048, Nat.mod_lt _ (by decide)⟩, ⟨f % 2 ^ 52, Nat.mod_lt _ (by decide)⟩⟩

/-- The position of the highest set bit of `n`, found in at most `fuel` halvings. -/
def log2Fuel : Nat → Nat → Nat
  | 0, _ => 0
  | fuel + 1, n => if 2 ≤ n then log2Fuel fuel (n / 2) + 1 else 0

/-- Go's conversion `float64(n)` of a non-negative `int`: exact below `2 ^ 53`, and rounded
to the nearest datum, ties to the even one, from there on. -/
def ofNat (n : Nat) : F64 :=
  if n = 0 then zero
  else
    let e := log2Fuel 64 n
    if e ≤ 52 then ofBits false (1023 + e) ((n - 2 ^ e) * 2 ^ (52 - e))
    else
      let q := n / 2 ^ (e - 52)
      let r := n % 2 ^ (e - 52)
      let half := 2 ^ (e - 53)
      let q1 := if half < r ∨ (r = half ∧ q % 2 = 1) then q + 1 else q
      if q1 = 2 ^ 53 then ofBits false (1023 + e + 1) 0
      else ofBits false (1023 + e) (q1 - 2 ^ 52)

end F64

/-! ## More primitives of `CoreNS` -/

/-- The entry `-`; `fsub` is the host's `-` on `float64`. -/
def CoreNS_sub (fsub : F64 → F64 → F64) (args : List Value) : Result :=
  match args with
  | [] => indexOutOfRange
  | [_] => indexOutOfRange
  | a0 :: a1 :: _ =>
    match a0 with
    | .Number a =>
      match a1 with
      | .Number b => .ok (.Number (fsub a b))
      | _ => nilDeref
    | _ => nilDeref

/-- The entry `*`; `fmul` is the host's `*` on `float64`. -/
def CoreNS_mul (fmul : F64 → F64 → F64) (args : List Value) : Result :=
  match args with
  | [] => indexOutOfRange
  | [_] => indexOutOfRange
  | a0 :: a1 :: _ =>
    match a0 with
    | .Number a =>
      match a1 with
      | .Number b => .ok (.Number (fmul a b))
      | _ => nilDeref
    | _ => nilDeref

/-- The entry `/`; `fdiv` is the host's `/` on `float64`.  There is no test of the
divisor. -/
def CoreNS_div (fdiv : F64 → F64 → F64) (args : List Value) : Result :=
  match args with
  | [] => indexOutOfRange
  | [_] => indexOutOfRange
  | a0 :: a1 :: _ =>
    match a0 with
    | .Number a =>
      match a1 with
      | .Number b => .ok (.Number (fdiv a b))
      | _ => nilDeref
    | _ => nilDeref

/-- The entry `list?`. -/
def CoreNS_listQ (args : List Value) : Result :=
  match args with
  | [] => indexOutOfRange
  | a0 :: _ =>
    match a0 with
    | .List _ => .ok (.Boolean true)
    | _ => .ok (.Boolean false)

/-- The entry `count`. -/
def CoreNS_count (args : List Value) : Result :=
  match args with
  | [] => indexOutOfRange
  | a0 :: _ =>
    match a0 with
    | .List lst => .ok (.Number (F64.ofNat lst.length))
    | _ => .ok (.Number F64.zero)

/-- The entry `<`. -/
def CoreNS_lt (args : List Value) : Result :=
  match args with
  | [] => indexOutOfRange
  | [_] => indexOutOfRange
  | a0 :: a1 :: _ =>
    match a0 with
    | .Number a =>
      match a1 with
      | .Number b => .ok (.Boolean (F64.lt a b))
      | _ => nilDeref
    | _ => nilDeref

/-- The entry `>`. -/
def CoreNS_gt (args : List Value) : Result :=
  match args with
  | [] => indexOutOfRange
  | [_] => indexOutOfRange
  | a0 :: a1 :: _ =>
    match a0 with
    | .Number a =>
      match a1 with
      | .Number b => .ok (.Boolean (F64.gt a b))
      | _ => nilDeref
    | _ => nilDeref

/-- The entry `<=`. -/
def CoreNS_le (args : List Value) : Result :=
  match args with
  | [] => indexOutOfRange
  | [_] => indexOutOfRange
  | a0 :: a1 :: _ =>
    match a0 with
    | .Number a =>
      match a1 with
      | .Number b => .ok (.Boolean (F64.le a b))
      | _ => nilDeref
    | _ => nilDeref

/-- The entry `>=`. -/
def CoreNS_ge (args : List Value) : Result :=
  match args with
  | [] => indexOutOfRange
  | [_] => indexOutOfRange
  | a0 :: a1 :: _ =>
    match a0 with
    | .Number a =>
      match a1 with
      | .Number b => .ok (.Boolean (F64.ge a b))
      | _ => nilDeref
    | _ => nilDeref

/-- The loop `for i, v := range args` of the entries `pr-str`, `prn` and `println`, where
it stands after `i` arguments, on the arguments left and the text written so far.
`render v` stands for `PrString(v, true)` or `PrString(v, false)`: the renderer of two
arguments that `core.go` calls is not among the source files. -/
def writeSpaced (render : Value → String) (len : Nat) : Nat → List Value → String → String
  | _, [], sb => sb
  | i, v :: rest, sb =>
    let sb := sb ++ render v
    let sb := if (i : Int) < (len : Int) - 1 then sb ++ " " else sb
    writeSpaced render len (i + 1) rest sb

/-- The loop of the entry `str`, on the arguments left and the text written so far. -/
def writeAll (render : Value → String) : List Value → String → String
  | [], sb => sb
  | v :: rest, sb => writeAll render rest (sb ++ render v)

/-- The entry `pr-str`; `prString v readable` is the two-argument `PrString` that
`core.go` calls. -/
def CoreNS_prStr (prString : Value → Bool → String) (args : List Value) : Result :=
  .ok (.String (writeSpaced (fun v => prString v true) args.length 0 args ""))

/-- The entry `str`. -/
def CoreNS_str (prString : Value → Bool → String) (args : List Value) : Result :=
  .ok (.String (writeAll (fun v => prString v false) args ""))

/-- What running a primitive does: the text it writes to standard output, and its
result. -/
structure Effect where
  stdout : String
  result : Result

/-- The entry `prn`: `fmt.Println` of the text of `pr-str`. -/
def CoreNS_prn (prString : Value → Bool → String) (args : List Value) : Effect :=
  ⟨writeSpaced (fun v => prString v true) args.length 0 args "" ++ "\n", .ok .Nil⟩

/-- The entry `println`. -/
def CoreNS_println (prString : Value → Bool → String) (args : List Value) : Effect :=
  ⟨writeSpaced (fun v => prString v false) args.length 0 args "" ++ "\n", .ok .Nil⟩

/-- The entry `read-string`; `readStr` is the reader's `ReadStr`. -/
def CoreNS_readString (readStr : String → Result) (args : List Value) : Result :=
  match args with
  | [] => indexOutOfRange
  | a0 :: _ =>
    match a0 with
    | .String v => readStr v
    | _ => nilDeref

/-- The entry `slurp`; `readFile` is `ioutil.ReadFile`, which gives the contents of the
file or an error. -/
def CoreNS_slurp (readFile : String → Except String String) (args : List Value) : Result :=
  match args with
  | [] => indexOutOfRange
  | a0 :: _ =>
    match a0 with
    | .String filename =>
      match readFile filename with
      | .error err => .err err
      | .ok dat => .ok (.String dat)
    | _ => nilDeref

/-! ## The printer (`printer.go`) -/

/-- The text `printAtom` returns for a value it has no case for. -/
def notImplemented : String := "<TO STRING NOT IMPLEMENTED>"

mutual
/-- The function `printAtom`; `formatFloat v` is `strconv.FormatFloat(v, 'g', -1, 64)`.
Its `*List` case, `return PrString(v)`, is written out as the `*List` case of `PrString`,
the one that call runs. -/
def printAtom (formatFloat : F64 → String) : Value → String
  | .Symbol v => v
  | .Number v => formatFloat v
  | .List v =>
    let sb := ""
    let sb := sb ++ "("
    let sb := printElems formatFloat v.length 0 v sb
    let sb := sb ++ ")"
    sb
  | _ => notImplemented
/-- The loop `for i, vel := range v.value` of `PrString`, where it stands after `i`
elements, on the elements left and the text written so far. -/
def printElems (formatFloat : F64 → String) (len : Nat) : Nat → List Value → String → String
  | _, [], sb => sb
  | i, vel :: rest, sb =>
    let sb := sb ++ printAtom formatFloat vel
    let sb := if (i : Int) < (len : Int) - 1 then sb ++ " " else sb
    printElems formatFloat len (i + 1) rest sb
end

/-- The function `PrString` of `printer.go`, of one argument. -/
def PrString (formatFloat : F64 → String) (ast : Value) : String :=
  match ast with
  | .List v =>
    let sb := ""
    let sb := sb ++ "("
    let sb := printElems formatFloat v.length 0 v sb
    let sb := sb ++ ")"
    sb
  | v =>
    let sb := ""
    let sb := sb ++ printAtom formatFloat v
    sb

/-! ## The table `CoreNS` -/

/-- A `*Symbol`: the address of the allocation and the name held there. -/
structure SymbolPtr where
  addr : Nat
  value : String
deriving DecidableEq, Repr

/-- What lies outside `core.go`: the host's arithmetic on `float64`, the two-argument
`PrString`, the reader's `ReadStr` and the file system behind `ioutil.ReadFile`. -/
structure Host where
  fadd : F64 → F64 → F64
  fsub : F64 → F64 → F64
  fmul : F64 → F64 → F64
  fdiv : F64 → F64 → F64
  prString : Value → Bool → String
  readStr : String → Result
  readFile : String → Except String String

/-- The callable `Fn` of a `*Function`. -/
abbrev Fn := List Value → Effect

/-- A callable that writes nothing. -/
def silent (f : List Value → Result) : Fn := fun args => ⟨"", f args⟩

/-- The map literal `CoreNS`, entry by entry in the order of the source; each composite
literal `&Symbol{...}` is an allocation of its own, numbered here from 0. -/
def CoreNS (h : Host) : List (SymbolPtr × Fn) :=
  [ (⟨0, "+"⟩, silent (CoreNS_add h.fadd)),
    (⟨1, "-"⟩, silent (CoreNS_sub h.fsub)),
    (⟨2, "*"⟩, silent (CoreNS_mul h.fmul)),
    (⟨3, "/"⟩, silent (CoreNS_div h.fdiv)),
    (⟨4, "list"⟩, silent CoreNS_list),
    (⟨5, "list?"⟩, silent CoreNS_listQ),
    (⟨6, "empty?"⟩, silent CoreNS_emptyQ),
    (⟨7, "count"⟩, silent CoreNS_count),
    (⟨8, "<"⟩, silent CoreNS_lt),
    (⟨9, ">"⟩, silent CoreNS_gt),
    (⟨10, "<="⟩, silent CoreNS_le),
    (⟨11, ">="⟩, silent CoreNS_ge),
    (⟨12, "pr-str"⟩, silent (CoreNS_prStr h.prString)),
    (⟨13, "str"⟩, silent (CoreNS_str h.prString)),
    (⟨14, "prn"⟩, CoreNS_prn h.prString),
    (⟨15, "println"⟩, CoreNS_println h.prString),
    (⟨16, "read-string"⟩, silent (CoreNS_readString h.readStr)),
    (⟨17, "slurp"⟩, silent (CoreNS_slurp h.readFile)),
    (⟨18, "="⟩, silent compareFunc) ]

/-- Go's index expression `m[k]` on a `map[*Symbol]*Function`: keys are compared as
pointers. -/
def mapIndex (m : List (SymbolPtr × Fn)) (k : SymbolPtr) : Option Fn :=
  (m.find? (fun e => e.1.addr == k.addr)).map (fun e => e.2)

/-- A look-up by name: the callable of the first entry whose key holds the name. -/
def lookupName (m : List (SymbolPtr × Fn)) (name : String) : Option Fn :=
  (m.find? (fun e => e.1.value == name)).map (fun e => e.2)

/-- The nineteen names the spec requires of the table. -/
def requiredNames : List String :=
  ["+", "-", "*", "/", "list", "list?", "empty?", "count", "<", ">", "<=", ">=",
    "pr-str", "str", "prn", "println", "read-string", "slurp", "="]

/-! ## The same tree -/

/-- The datum with `-0` replaced by `0`. -/
def F64.canon (x : F64) : F64 := if x.isZero then F64.zero else x

mutual
/-- The value with every `-0` in it, at any depth, replaced by `0`. -/
def normalize : Value → Value
  | .Number v => .Number v.canon
  | .List vs => .List (normalizeList vs)
  | v => v
/-- The values, normalised one by one. -/
def normalizeList : List Value → List Value
  | [] => []
  | v :: vs => normalize v :: normalizeList vs
end

/-! ## The order of float64 and the values -/

namespace F64

/-- The magnitude of a finite datum in units of `2 ^ (-1074)`, the least positive
magnitude: a natural number. -/
def scaled (x : F64) : Nat :=
  if x.exponent.val = 0 then x.fraction.val
  else (2 ^ 52 + x.fraction.val) * 2 ^ (x.exponent.val - 1)

/-- The exponent and fraction fields read as one number. -/
def magnitude (x : F64) : Nat := x.exponent.val * 2 ^ 52 + x.fraction.val

end F64

/-! ## Proofs -/

theorem value_induct {P : Value → Prop}
    (hNumber : ∀ v, P (.Number v)) (hString : ∀ v, P (.String v))
    (hSymbol : ∀ v, P (.Symbol v)) (hBoolean : ∀ v, P (.Boolean v))
    (hNil : P .Nil) (hFunction : ∀ f, P (.Function f))
    (hList : ∀ vs : List Value, (∀ x ∈ vs, P x) → P (.List vs)) : ∀ v, P v := by
  intro v
  refine @Value.rec P (fun vs => ∀ x ∈ vs, P x)
    hNumber hString hSymbol hBoolean hNil (fun vs ih => hList vs ih) hFunction ?_ ?_ v
  · intro x hx
    cases hx
  · intro head tail ih1 ih2 x hx
    rcases List.mem_cons.mp hx with h | h
    · exact h ▸ ih1
    · exact ih2 x h

/-! ### float64 equality -/

theorem F64.eq_comm (x y : F64) : F64.eq x y = F64.eq y x := by
  unfold F64.eq
  have h : (x == y) = (y == x) := by
    by_cases hxy : x = y
    · subst hxy; rfl
    · have hyx : ¬ y = x := fun h => hxy h.symm
      simp [hxy, hyx]
  rw [h]
  cases x.isNaN <;> cases y.isNaN <;> cases x.isZero <;> cases y.isZero <;> simp

theorem F64.eq_trans {x y z : F64} (h1 : F64.eq x y = true) (h2 : F64.eq y z = true) :
    F64.eq x z = true := by
  unfold F64.eq at *
  simp only [Bool.and_eq_true, Bool.or_eq_true, Bool.not_eq_true', beq_iff_eq] at *
  obtain ⟨⟨hx, _⟩, hxy⟩ := h1
  obtain ⟨⟨_, hz⟩, hyz⟩ := h2
  refine ⟨⟨hx, hz⟩, ?_⟩
  rcases hxy with hxy | hxy
  · subst hxy; exact hyz
  · rcases hyz with hyz | hyz
    · subst hyz; exact Or.inr hxy
    · exact Or.inr ⟨hxy.1, hyz.2⟩

theorem F64.eq_self (x : F64) : F64.eq x x = !x.isNaN := by
  unfold F64.eq
  cases x.isNaN <;> simp

/-! ### unfolding `compareFunc` -/

@[simp] theorem compareFunc_pair (a b : Value) : compareFunc [a, b] = compareArgs a b := rfl

theorem compareArgs_of_typeOf_ne {a b : Value} (h : a.typeOf ≠ b.typeOf) :
    compareArgs a b = .ok (.Boolean false) := by
  unfold compareArgs
  simp [h]

theorem compareArgs_Symbol (v v2 : String) :
    compareArgs (.Symbol v) (.Symbol v2) = .ok (.Boolean (v == v2)) := by
  simp [compareArgs, Value.typeOf]

theorem compareArgs_Number (v v2 : F64) :
    compareArgs (.Number v) (.Number v2) = .ok (.Boolean (F64.eq v v2)) := by
  simp [compareArgs, Value.typeOf]

theorem compareArgs_Boolean (v v2 : Bool) :
    compareArgs (.Boolean v) (.Boolean v2) = .ok (.Boolean (v == v2)) := by
  simp [compareArgs, Value.typeOf]

theorem compareArgs_String (v v2 : String) :
    compareArgs (.String v) (.String v2) = .ok (.Boolean (v == v2)) := by
  simp [compareArgs, Value.typeOf]

theorem compareArgs_Nil : compareArgs .Nil .Nil = .ok (.Boolean true) := by
  simp [compareArgs, Value.typeOf]

theorem compareArgs_Function (f : Nat) (b : Value) :
    compareArgs (.Function f) b = .ok (.Boolean false) := by
  cases b <;> simp [compareArgs, Value.typeOf]

theorem compareArgs_List (v v2 : List Value) :
    compareArgs (.List v) (.List v2)
      = if v.length != v2.length then .ok (.Boolean false) else compareLoop v v2 := by
  simp [compareArgs, Value.typeOf]

theorem compareLoop_nil (ys : List Value) : compareLoop [] ys = .ok (.Boolean true) := by
  simp [compareLoop]

theorem compareLoop_cons (x y : Value) (xs ys : List Value) :
    compareLoop (x :: xs) (y :: ys) =
      match compareArgs x y with
      | .ok (.Boolean rbool) =>
        if rbool == false then .ok (.Boolean false) else compareLoop xs ys
      | .panic msg => .panic msg
      | _ => nilDeref := by
  simp [compareLoop]

theorem compareLoop_cons_of_true {x y : Value} (xs ys : List Value)
    (h : compareArgs x y = .ok (.Boolean true)) :
    compareLoop (x :: xs) (y :: ys) = compareLoop xs ys := by
  rw [compareLoop_cons, h]; rfl

theorem compareLoop_cons_of_false {x y : Value} (xs ys : List Value)
    (h : compareArgs x y = .ok (.Boolean false)) :
    compareLoop (x :: xs) (y :: ys) = .ok (.Boolean false) := by
  rw [compareLoop_cons, h]; rfl

/-! ### `compareFunc` always answers with a Boolean -/

theorem compareLoop_boolean_of (xs : List Value)
    (ih : ∀ x ∈ xs, ∀ b, ∃ r, compareArgs x b = .ok (.Boolean r)) :
    ∀ ys : List Value, xs.length = ys.length → ∃ r, compareLoop xs ys = .ok (.Boolean r) := by
  induction xs with
  | nil => intro ys _; exact ⟨true, compareLoop_nil ys⟩
  | cons x xs ihxs =>
    intro ys hlen
    cases ys with
    | nil => simp at hlen
    | cons y ys =>
      obtain ⟨r, hr⟩ := ih x (List.mem_cons_self x xs) y
      cases r with
      | false => exact ⟨false, compareLoop_cons_of_false xs ys hr⟩
      | true =>
        rw [compareLoop_cons_of_true xs ys hr]
        exact ihxs (fun z hz => ih z (List.mem_cons_of_mem x hz)) ys (by simpa using hlen)

theorem compareArgs_boolean (a : Value) : ∀ b, ∃ r, compareArgs a b = .ok (.Boolean r) := by
  induction a using value_induct with
  | hList vs ih =>
    intro b
    by_cases ht : (Value.List vs).typeOf = b.typeOf
    · cases b <;> simp [Value.typeOf] at ht
      rename_i ws
      rw [compareArgs_List]
      by_cases hlen : vs.length = ws.length
      · simpa [hlen] using compareLoop_boolean_of vs ih ws hlen
      · exact ⟨false, by simp [hlen]⟩
    · exact ⟨false, compareArgs_of_typeOf_ne ht⟩
  | hNil => intro b; cases b <;> simp [compareArgs, Value.typeOf]
  | _ v => intro b; cases b <;> simp [compareArgs, Value.typeOf]

theorem compareLoop_boolean {xs ys : List Value} (h : xs.length = ys.length) :
    ∃ r, compareLoop xs ys = .ok (.Boolean r) :=
  compareLoop_boolean_of xs (fun x _ b => compareArgs_boolean x b) ys h

/-- The loop answers `true` exactly when every pair of elements compares `true`. -/
theorem compareLoop_eq_true_iff :
    ∀ (xs ys : List Value), xs.length = ys.length →
      (compareLoop xs ys = .ok (.Boolean true) ↔
        ∀ (i : Nat) (h1 : i < xs.length) (h2 : i < ys.length),
          compareArgs (xs.get ⟨i, h1⟩) (ys.get ⟨i, h2⟩) = .ok (.Boolean true)) := by
  intro xs
  induction xs with
  | nil => intro ys _; simp [compareLoop_nil]
  | cons x xs ih =>
    intro ys hlen
    cases ys with
    | nil => simp at hlen
    | cons y ys =>
      have hlen2 : xs.length = ys.length := by simpa using hlen
      obtain ⟨r, hr⟩ := compareArgs_boolean x y
      cases r with
      | false =>
        rw [compareLoop_cons_of_false xs ys hr]
        constructor
        · intro h; cases h
        · intro h
          have := h 0 (by simp) (by simp)
          simp [hr] at this
      | true =>
        rw [compareLoop_cons_of_true xs ys hr, ih ys hlen2]
        constructor
        · intro h i h1 h2
          cases i with
          | zero => simpa using hr
          | succ i => simpa using h i (by simpa using h1) (by simpa using h2)
        · intro h i h1 h2
          simpa using h (i + 1) (by simpa using h1) (by simpa using h2)

/-! ### symmetry -/

theorem compareLoop_comm_of (xs : List Value)
    (ih : ∀ x ∈ xs, ∀ b, compareArgs x b = compareArgs b x) :
    ∀ ys : List Value, xs.length = ys.length → compareLoop xs ys = compareLoop ys xs := by
  induction xs with
  | nil =>
    intro ys hlen
    cases ys with
    | nil => rfl
    | cons y ys => simp at hlen
  | cons x xs ihxs =>
    intro ys hlen
    cases ys with
    | nil => simp at hlen
    | cons y ys =>
      rw [compareLoop_cons, compareLoop_cons, ih x (List.mem_cons_self x xs) y,
        ihxs (fun z hz => ih z (List.mem_cons_of_mem x hz)) ys (by simpa using hlen)]

theorem compareArgs_comm (a : Value) : ∀ b, compareArgs a b = compareArgs b a := by
  induction a using value_induct with
  | hList vs ih =>
    intro b
    by_cases ht : (Value.List vs).typeOf = b.typeOf
    · cases b <;> simp [Value.typeOf] at ht
      rename_i ws
      rw [compareArgs_List, compareArgs_List]
      by_cases hlen : vs.length = ws.length
      · simpa [hlen] using compareLoop_comm_of vs ih ws hlen
      · have hlen2 : ¬ ws.length = vs.length := fun h => hlen h.symm
        simp [hlen, hlen2]
    · rw [compareArgs_of_typeOf_ne ht, compareArgs_of_typeOf_ne (fun h => ht h.symm)]
  | hNumber v =>
    intro b
    cases b <;> simp [compareArgs, Value.typeOf]
    exact F64.eq_comm _ _
  | hNil => intro b; cases b <;> simp [compareArgs, Value.typeOf]
  | hFunction f => intro b; cases b <;> simp [compareArgs, Value.typeOf]
  | _ v =>
    intro b
    cases b <;> simp [compareArgs, Value.typeOf]
    exact eq_comm

/-! ### transitivity -/

theorem typeOf_eq_of_compareArgs {a b : Value} (h : compareArgs a b = .ok (.Boolean true)) :
    a.typeOf = b.typeOf := by
  by_contra ht
  rw [compareArgs_of_typeOf_ne ht] at h
  cases h

theorem compareArgs_List_eq_true_iff (xs ys : List Value) :
    compareArgs (.List xs) (.List ys) = .ok (.Boolean true) ↔
      xs.length = ys.length ∧
        ∀ (i : Nat) (h1 : i < xs.length) (h2 : i < ys.length),
          compareArgs (xs.get ⟨i, h1⟩) (ys.get ⟨i, h2⟩) = .ok (.Boolean true) := by
  rw [compareArgs_List]
  by_cases hlen : xs.length = ys.length
  · have hb : (xs.length != ys.length) = false := by simp [hlen]
    rw [hb]
    simp only [Bool.false_eq_true, if_false]
    exact ⟨fun h => ⟨hlen, (compareLoop_eq_true_iff xs ys hlen).mp h⟩,
      fun h => (compareLoop_eq_true_iff xs ys hlen).mpr h.2⟩
  · simp [hlen]

theorem compareArgs_trans (a : Value) :
    ∀ b c, compareArgs a b = .ok (.Boolean true) → compareArgs b c = .ok (.Boolean true) →
      compareArgs a c = .ok (.Boolean true) := by
  induction a using value_induct with
  | hList vs ih =>
    intro b c h1 h2
    have t1 := typeOf_eq_of_compareArgs h1
    have t2 := typeOf_eq_of_compareArgs h2
    cases b <;> simp [Value.typeOf] at t1
    cases c <;> simp [Value.typeOf] at t2
    rename_i ws us
    rw [compareArgs_List_eq_true_iff] at h1 h2 ⊢
    refine ⟨h1.1.trans h2.1, fun i hi1 hi2 => ?_⟩
    have hw : i < ws.length := h1.1 ▸ hi1
    exact ih _ (List.get_mem vs i hi1) _ _ (h1.2 i hi1 hw) (h2.2 i hw hi2)
  | hNumber v =>
    intro b c h1 h2
    have t1 := typeOf_eq_of_compareArgs h1
    have t2 := typeOf_eq_of_compareArgs h2
    cases b <;> simp [Value.typeOf] at t1
    cases c <;> simp [Value.typeOf] at t2
    rw [compareArgs_Number] at h1 h2 ⊢
    simp only [Result.ok.injEq, Value.Boolean.injEq] at h1 h2 ⊢
    exact F64.eq_trans h1 h2
  | hNil =>
    intro b c h1 h2
    have t1 := typeOf_eq_of_compareArgs h1
    have t2 := typeOf_eq_of_compareArgs h2
    cases b <;> simp [Value.typeOf] at t1
    cases c <;> simp [Value.typeOf] at t2
    exact compareArgs_Nil
  | hFunction f =>
    intro b c h1 _
    rw [compareArgs_Function] at h1
    cases h1
  | _ v =>
    intro b c h1 h2
    have t1 := typeOf_eq_of_compareArgs h1
    have t2 := typeOf_eq_of_compareArgs h2
    cases b <;> simp [Value.typeOf] at t1
    cases c <;> simp [Value.typeOf] at t2
    simp [compareArgs, Value.typeOf] at h1 h2 ⊢
    exact h1.trans h2

/-! ### reflexivity -/

theorem compareLoop_self_of (xs : List Value)
    (ih : ∀ x ∈ xs, compareArgs x x = .ok (.Boolean (!hasFunction x && !hasNaN x))) :
    compareLoop xs xs = .ok (.Boolean (!hasFunctionList xs && !hasNaNList xs)) := by
  induction xs with
  | nil => simp [compareLoop_nil, hasFunctionList, hasNaNList]
  | cons x xs ihxs =>
    have hx := ih x (List.mem_cons_self x xs)
    have hxs := ihxs (fun z hz => ih z (List.mem_cons_of_mem x hz))
    rw [compareLoop_cons, hx, hxs]
    simp only [hasFunctionList, hasNaNList]
    cases hasFunction x <;> cases hasNaN x <;> cases hasFunctionList xs <;>
      cases hasNaNList xs <;> rfl

theorem compareArgs_self (a : Value) :
    compareArgs a a = .ok (.Boolean (!hasFunction a && !hasNaN a)) := by
  induction a using value_induct with
  | hList vs ih =>
    rw [compareArgs_List]
    simp only [bne_self_eq_false, Bool.false_eq_true, if_false, hasFunction, hasNaN]
    exact compareLoop_self_of vs ih
  | hNumber v => simp [compareArgs_Number, F64.eq_self, hasFunction, hasNaN]
  | hNil => simp [compareArgs_Nil, hasFunction, hasNaN]
  | hFunction f => simp [compareArgs_Function, hasFunction, hasNaN]
  | hString v => simp [compareArgs_String, hasFunction, hasNaN]
  | hSymbol v => simp [compareArgs_Symbol, hasFunction, hasNaN]
  | hBoolean v => simp [compareArgs_Boolean, hasFunction, hasNaN]

/-! ## The equality comparator -/

/-- C1: comparing two Lists returns a Boolean, and it is `true` exactly when the Lists have
the same length and `compareFunc` returns `true` on the elements at every index; two empty
Lists compare `true`, and Lists of different lengths compare `false`. -/
theorem compareFunc_List_spec (a b : List Value) :
    (∃ r : Bool, compareFunc [.List a, .List b] = .ok (.Boolean r) ∧
      (r = true ↔
        a.length = b.length ∧
          ∀ (i : Nat) (h1 : i < a.length) (h2 : i < b.length),
            compareFunc [a.get ⟨i, h1⟩, b.get ⟨i, h2⟩] = .ok (.Boolean true))) ∧
    compareFunc [.List [], .List []] = .ok (.Boolean true) ∧
    (a.length ≠ b.length → compareFunc [.List a, .List b] = .ok (.Boolean false)) := by
  refine ⟨?_, rfl, ?_⟩
  · obtain ⟨r, hr⟩ := compareArgs_boolean (.List a) (.List b)
    refine ⟨r, hr, ?_⟩
    have h := compareArgs_List_eq_true_iff a b
    rw [hr] at h
    simpa using h
  · intro hlen
    simp [compareArgs_List, hlen]

/-- Witness of C1 on `(1)` against `(1 2)`, whose lengths differ. -/
theorem compareFunc_List_spec_witness :
    [Value.Number F64.one].length ≠ [Value.Number F64.one, Value.Number F64.two].length ∧
      compareFunc [.List [.Number F64.one], .List [.Number F64.one, .Number F64.two]]
        = .ok (.Boolean false) :=
  ⟨by decide, (compareFunc_List_spec _ _).2.2 (by decide)⟩

/-- C2: two values of different variants compare `false`, without failure, and two `Nil`
compare `true`. -/
theorem compareFunc_variant_spec (a b : Value) :
    (a.typeOf ≠ b.typeOf → compareFunc [a, b] = .ok (.Boolean false)) ∧
    (a.typeOf = .Nil → b.typeOf = .Nil → compareFunc [a, b] = .ok (.Boolean true)) := by
  refine ⟨fun h => compareArgs_of_typeOf_ne h, fun ha hb => ?_⟩
  cases a <;> simp [Value.typeOf] at ha
  cases b <;> simp [Value.typeOf] at hb
  exact compareArgs_Nil

/-- Witness of C2: the Number `1` against the String `"1"`, and `Nil` against `Nil`. -/
theorem compareFunc_variant_spec_witness :
    ((Value.Number F64.one).typeOf ≠ (Value.String "1").typeOf ∧
      compareFunc [.Number F64.one, .String "1"] = .ok (.Boolean false)) ∧
    (Value.Nil.typeOf = .Nil ∧ compareFunc [.Nil, .Nil] = .ok (.Boolean true)) :=
  ⟨⟨by decide, (compareFunc_variant_spec (.Number F64.one) (.String "1")).1 (by decide)⟩,
    rfl, (compareFunc_variant_spec .Nil .Nil).2 rfl rfl⟩

/-- C4: a Function compares `false` with every value, itself included. -/
theorem compareFunc_Function_spec (f : Nat) (b : Value) :
    compareFunc [.Function f, b] = .ok (.Boolean false) ∧
    compareFunc [.Function f, .Function f] = .ok (.Boolean false) :=
  ⟨compareArgs_Function f b, compareArgs_Function f (.Function f)⟩

/-- C5: equality is symmetric: `compareFunc` returns the same Boolean on `(a, b)` and on
`(b, a)`, for all values. -/
theorem compareFunc_symm (a b : Value) :
    ∃ r : Bool, compareFunc [a, b] = .ok (.Boolean r) ∧
      compareFunc [b, a] = .ok (.Boolean r) := by
  obtain ⟨r, hr⟩ := compareArgs_boolean a b
  exact ⟨r, hr, by rw [compareFunc_pair, ← compareArgs_comm a b]; exact hr⟩

/-- C6, as the claim states it, fails: a Number holding a NaN and a List holding a Function
are not of variant Function, and each compares `false` with itself. -/
theorem compareFunc_refl_counterexample :
    ((Value.Number F64.nan).typeOf ≠ .Function ∧
      compareFunc [.Number F64.nan, .Number F64.nan] = .ok (.Boolean false)) ∧
    ((Value.List [.Function 0]).typeOf ≠ .Function ∧
      compareFunc [.List [.Function 0], .List [.Function 0]] = .ok (.Boolean false)) :=
  ⟨⟨by decide, rfl⟩, by decide, rfl⟩

/-- C6, amended: a value that holds no Function and no NaN Number at any depth compares
`true` with itself, and a value that holds one compares `false` with itself. -/
theorem compareFunc_refl (a : Value) :
    (hasFunction a = false → hasNaN a = false →
      compareFunc [a, a] = .ok (.Boolean true)) ∧
    (hasFunction a = true ∨ hasNaN a = true →
      compareFunc [a, a] = .ok (.Boolean false)) := by
  rw [compareFunc_pair, compareArgs_self]
  constructor
  · intro h1 h2; simp [h1, h2]
  · rintro (h | h) <;> simp [h]

/-- Witness of the amended C6 on the nested List `(1 ("a" nil) ())`, and on `(NaN)`. -/
theorem compareFunc_refl_witness :
    compareFunc [.List [.Number F64.one, .List [.String "a", .Nil], .List []],
        .List [.Number F64.one, .List [.String "a", .Nil], .List []]] = .ok (.Boolean true) ∧
    compareFunc [.List [.Number F64.nan], .List [.Number F64.nan]] = .ok (.Boolean false) :=
  ⟨(compareFunc_refl _).1 rfl rfl, (compareFunc_refl _).2 (Or.inr rfl)⟩

/-- C7: equality is transitive: if `compareFunc` returns `true` on `(a, b)` and on `(b, c)`
then it returns `true` on `(a, c)`. -/
theorem compareFunc_trans (a b c : Value)
    (h1 : compareFunc [a, b] = .ok (.Boolean true))
    (h2 : compareFunc [b, c] = .ok (.Boolean true)) :
    compareFunc [a, c] = .ok (.Boolean true) :=
  compareArgs_trans a b c h1 h2

/-- Witness of C7 on the Lists `(0 "x")`, `(-0 "x")` and `(0 "x")`. -/
theorem compareFunc_trans_witness :
    compareFunc [.List [.Number F64.zero, .String "x"], .List [.Number F64.zero, .String "x"]]
      = .ok (.Boolean true) :=
  compareFunc_trans _ (.List [.Number F64.negZero, .String "x"]) _ rfl rfl

/-! ## The primitives -/

/-- C8: `+` called with a String as first argument reads a field through the nil pointer
that the failed type assertion left, and `+` called with fewer than two arguments indexes
past the end of its arguments: both stop with a run-time panic, not with a failure. -/
theorem CoreNS_add_panics (fadd : F64 → F64 → F64) :
    CoreNS_add fadd [.String "a", .Number F64.one]
      = .panic "invalid memory address or nil pointer dereference" ∧
    CoreNS_add fadd [.Number F64.one] = .panic "index out of range" ∧
    CoreNS_add fadd [] = .panic "index out of range" :=
  ⟨rfl, rfl, rfl⟩

/-- C9: `list` succeeds on every argument list and returns the List of exactly these
arguments, in their order. -/
theorem CoreNS_list_spec (args : List Value) :
    ∃ l : List Value, CoreNS_list args = .ok (.List l) ∧ l = args ∧
      l.length = args.length :=
  ⟨args, rfl, rfl, rfl⟩

/-- C10: `empty?` applied to a value succeeds with a Boolean, which is `true` exactly when
the value is a List of length 0. -/
theorem CoreNS_emptyQ_spec (x : Value) :
    ∃ r : Bool, CoreNS_emptyQ [x] = .ok (.Boolean r) ∧
      (r = true ↔ ∃ l : List Value, x = .List l ∧ l.length = 0) := by
  cases x with
  | List l =>
    cases l with
    | nil => exact ⟨true, rfl, by simp⟩
    | cons y ys => exact ⟨false, rfl, by simp⟩
  | _ => exact ⟨false, rfl, by simp⟩

/-! ### conversion of a length to float64 -/

theorem F64.log2Fuel_spec :
    ∀ (fuel n : Nat), 0 < n → n < 2 ^ fuel →
      2 ^ F64.log2Fuel fuel n ≤ n ∧ n < 2 ^ (F64.log2Fuel fuel n + 1) := by
  intro fuel
  induction fuel with
  | zero => intro n h0 h1; simp at h1; omega
  | succ fuel ih =>
    intro n h0 h1
    unfold F64.log2Fuel
    by_cases h2 : 2 ≤ n
    · rw [if_pos h2]
      have hlt : n / 2 < 2 ^ fuel := by
        rw [pow_succ] at h1
        omega
      obtain ⟨ha, hb⟩ := ih (n / 2) (by omega) hlt
      rw [pow_succ, pow_succ]
      rw [pow_succ] at hb
      constructor <;> omega
    · rw [if_neg h2]
      simp
      omega

theorem F64.ofNat_exact (n : Nat) (h : n < 2 ^ 53) :
    (F64.ofNat n).isNaN = false ∧ (F64.ofNat n).isInf = false ∧
      (F64.ofNat n).toRat = (n : ℚ) := by
  by_cases h0 : n = 0
  · subst h0
    refine ⟨by decide, by decide, ?_⟩
    have hz : F64.ofNat 0 = F64.zero := rfl
    have hm0 : (if (F64.zero).exponent.val = 0 then (F64.zero).fraction.val
        else 2 ^ 52 + (F64.zero).fraction.val) = 0 := rfl
    simp only [hz, F64.toRat, hm0, Nat.zero_mul, Nat.cast_zero, mul_zero, zero_div]
  · obtain ⟨ha, hb⟩ := F64.log2Fuel_spec 64 n (by omega)
      (lt_trans h (by norm_num))
    generalize hk : F64.log2Fuel 64 n = k at ha hb
    have hk52 : k ≤ 52 := by
      by_contra hc
      have : 2 ^ 53 ≤ 2 ^ k := Nat.pow_le_pow_right (by norm_num) (by omega)
      omega
    have hd : 2 ^ 52 = 2 ^ k * 2 ^ (52 - k) := by
      rw [← pow_add]; congr 1; omega
    have hm : 2 ^ 52 + (n - 2 ^ k) * 2 ^ (52 - k) = n * 2 ^ (52 - k) := by
      rw [hd, ← Nat.add_mul]; congr 1; omega
    have hf : (n - 2 ^ k) * 2 ^ (52 - k) < 2 ^ 52 := by
      rw [hd]
      apply Nat.mul_lt_mul_of_lt_of_le (by rw [pow_succ] at hb; omega) le_rfl
      positivity
    have hof : F64.ofNat n = F64.ofBits false (1023 + k) ((n - 2 ^ k) * 2 ^ (52 - k)) := by
      simp only [F64.ofNat, if_neg h0, hk, if_pos hk52]
    have hev : (F64.ofNat n).exponent.val = 1023 + k := by
      rw [hof]; simp only [F64.ofBits]; omega
    have hfv : (F64.ofNat n).fraction.val = (n - 2 ^ k) * 2 ^ (52 - k) := by
      rw [hof]; simp only [F64.ofBits]; exact Nat.mod_eq_of_lt hf
    have hsv : (F64.ofNat n).sign = false := by rw [hof]; rfl
    have hne : (F64.ofNat n).exponent ≠ 2047 := by
      intro hc
      have h1 := congrArg Fin.val hc
      rw [hev] at h1
      have h2 : ((2047 : Fin 2048) : Nat) = 2047 := rfl
      omega
    refine ⟨by simp [F64.isNaN, hne], by simp [F64.isInf, hne], ?_⟩
    have he0 : ¬ (1023 + k = 0) := by omega
    have e1 : 1023 + k - 1075 = 0 := by omega
    have e2 : 1075 - (1023 + k) = 52 - k := by omega
    simp only [F64.toRat, hev, hfv, hsv, if_neg he0, hm, e1, e2]
    have hpos : ((2 ^ (52 - k) : Nat) : ℚ) ≠ 0 := by positivity
    push_cast
    field_simp

/-! ### the comparisons of float64 are those of the values -/

theorem F64.key_eq (x : F64) :
    x.key = if x.sign then -(x.magnitude : Int) else (x.magnitude : Int) := by
  simp only [F64.key, F64.magnitude]
  push_cast
  rfl

theorem F64.toRat_eq_scaled (x : F64) :
    x.toRat = (if x.sign then -1 else 1) * (x.scaled : ℚ) / (2 : ℚ) ^ 1074 := by
  simp only [F64.toRat, F64.scaled]
  generalize (if x.sign = true then (-1 : ℚ) else 1) = s
  by_cases h0 : x.exponent.val = 0
  · simp only [h0, if_true]
    have e1 : 1 - 1075 = 0 := rfl
    have e2 : 1075 - 1 = 1074 := rfl
    rw [e1, e2]
    simp only [pow_zero, mul_one, Nat.cast_pow, Nat.cast_ofNat]
  · simp only [h0, if_false]
    by_cases h1 : x.exponent.val ≤ 1075
    · have e1 : x.exponent.val - 1075 = 0 := by omega
      have e2 : 1074 = (x.exponent.val - 1) + (1075 - x.exponent.val) := by omega
      rw [e1]
      conv_rhs => rw [e2, pow_add]
      simp only [pow_zero, mul_one, Nat.cast_pow, Nat.cast_ofNat, Nat.cast_mul, Nat.cast_add]
      field_simp
      ring
    · have e1 : 1075 - x.exponent.val = 0 := by omega
      have e2 : x.exponent.val - 1 = (x.exponent.val - 1075) + 1074 := by omega
      rw [e1, e2, pow_add]
      simp only [pow_zero, Nat.cast_pow, Nat.cast_ofNat, Nat.cast_mul, Nat.cast_add,
        Nat.cast_one, div_one]
      field_simp
      ring

theorem F64.scaled_lt_of_magnitude_lt {x y : F64} (h : x.magnitude < y.magnitude) :
    x.scaled < y.scaled := by
  have hFx : x.fraction.val < 2 ^ 52 := x.fraction.isLt
  have hFy : y.fraction.val < 2 ^ 52 := y.fraction.isLt
  simp only [F64.magnitude] at h
  simp only [F64.scaled]
  by_cases hE : x.exponent.val = y.exponent.val
  · have hF : x.fraction.val < y.fraction.val := by
      rw [hE] at h
      omega
    rw [hE]
    by_cases h0 : y.exponent.val = 0
    · simpa [h0] using hF
    · simp only [h0, if_false]
      apply Nat.mul_lt_mul_of_lt_of_le (by omega) le_rfl
      positivity
  · have hlt : x.exponent.val < y.exponent.val := by
      by_contra hc
      have hgt : y.exponent.val + 1 ≤ x.exponent.val := by omega
      have := Nat.mul_le_mul_right (2 ^ 52) hgt
      omega
    have hy0 : ¬ y.exponent.val = 0 := by omega
    simp only [hy0, if_false]
    have hp : 0 < 2 ^ (y.exponent.val - 1) := by positivity
    have hylow : 2 ^ 52 * 2 ^ (y.exponent.val - 1)
        ≤ (2 ^ 52 + y.fraction.val) * 2 ^ (y.exponent.val - 1) :=
      Nat.mul_le_mul_right _ (by omega)
    by_cases h0 : x.exponent.val = 0
    · simp only [h0, if_true]
      have : 2 ^ 52 * 1 ≤ 2 ^ 52 * 2 ^ (y.exponent.val - 1) :=
        Nat.mul_le_mul_left _ hp
      omega
    · simp only [h0, if_false]
      have hxup : (2 ^ 52 + x.fraction.val) * 2 ^ (x.exponent.val - 1)
          < (2 ^ 52 * 2) * 2 ^ (x.exponent.val - 1) := by
        apply Nat.mul_lt_mul_of_lt_of_le (by omega) le_rfl
        positivity
      have hstep : (2 ^ 52 * 2) * 2 ^ (x.exponent.val - 1)
          ≤ 2 ^ 52 * 2 ^ (y.exponent.val - 1) := by
        rw [Nat.mul_assoc, ← pow_succ']
        apply Nat.mul_le_mul_left
        apply Nat.pow_le_pow_right (by norm_num)
        omega
      omega

theorem F64.eq_of_magnitude_eq {x y : F64} (h : x.magnitude = y.magnitude) :
    x.exponent = y.exponent ∧ x.fraction = y.fraction := by
  have hFx : x.fraction.val < 2 ^ 52 := x.fraction.isLt
  have hFy : y.fraction.val < 2 ^ 52 := y.fraction.isLt
  simp only [F64.magnitude] at h
  have hE : x.exponent.val = y.exponent.val := by
    by_contra hc
    rcases Nat.lt_or_gt_of_ne hc with h1 | h1
    · have := Nat.mul_le_mul_right (2 ^ 52) (show x.exponent.val + 1 ≤ y.exponent.val by omega)
      omega
    · have := Nat.mul_le_mul_right (2 ^ 52) (show y.exponent.val + 1 ≤ x.exponent.val by omega)
      omega
  have hF : x.fraction.val = y.fraction.val := by
    rw [hE] at h
    omega
  exact ⟨Fin.ext hE, Fin.ext hF⟩

theorem F64.scaled_lt_iff (x y : F64) : x.scaled < y.scaled ↔ x.magnitude < y.magnitude := by
  constructor
  · intro h
    by_contra hc
    rcases Nat.lt_or_eq_of_le (Nat.le_of_not_lt hc) with h1 | h1
    · have := F64.scaled_lt_of_magnitude_lt h1
      omega
    · obtain ⟨hE, hF⟩ := F64.eq_of_magnitude_eq h1
      simp only [F64.scaled, hE, hF] at h
      omega
  · exact F64.scaled_lt_of_magnitude_lt

theorem F64.scaled_eq_iff (x y : F64) : x.scaled = y.scaled ↔ x.magnitude = y.magnitude := by
  have h1 := F64.scaled_lt_iff x y
  have h2 := F64.scaled_lt_iff y x
  constructor <;> intro h <;> omega

theorem F64.scaled_eq_zero_iff (x : F64) : x.scaled = 0 ↔ x.magnitude = 0 := by
  have h := F64.scaled_eq_iff x F64.zero
  have hz1 : F64.zero.scaled = 0 := by decide
  have hz2 : F64.zero.magnitude = 0 := by decide
  rw [hz1, hz2] at h
  exact h

/-- The order of the keys is the order of the values. -/
theorem F64.key_lt_iff (x y : F64) : x.key < y.key ↔ x.toRat < y.toRat := by
  have hlt := F64.scaled_lt_iff x y
  have hgt := F64.scaled_lt_iff y x
  have hx0 := F64.scaled_eq_zero_iff x
  have hy0 := F64.scaled_eq_zero_iff y
  have hpos : (0 : ℚ) < (2 : ℚ) ^ 1074 := by positivity
  rw [F64.key_eq, F64.key_eq, F64.toRat_eq_scaled, F64.toRat_eq_scaled,
    div_lt_div_iff_of_pos_right hpos]
  have cast_lt : ∀ a b : Nat, ((a : ℚ) < (b : ℚ)) ↔ a < b := fun a b => Nat.cast_lt
  cases x.sign <;> cases y.sign <;> simp only [Bool.false_eq_true, if_true, if_false, one_mul,
    neg_mul, neg_lt_neg_iff, cast_lt]
  · omega
  · constructor
    · intro h; omega
    · intro h
      have h1 : (0 : ℚ) ≤ (x.scaled : ℚ) := Nat.cast_nonneg _
      have h2 : (0 : ℚ) ≤ (y.scaled : ℚ) := Nat.cast_nonneg _
      linarith
  · constructor
    · intro h
      have hne : ¬ (x.magnitude = 0 ∧ y.magnitude = 0) := by omega
      have hne2 : ¬ (x.scaled = 0 ∧ y.scaled = 0) := by
        rw [hx0, hy0]; exact hne
      have h1 : (0 : ℚ) ≤ (x.scaled : ℚ) := Nat.cast_nonneg _
      have h2 : (0 : ℚ) ≤ (y.scaled : ℚ) := Nat.cast_nonneg _
      by_cases hxz : x.scaled = 0
      · have hyz : 0 < y.scaled := by
          rcases Nat.eq_zero_or_pos y.scaled with h3 | h3
          · exact absurd ⟨hxz, h3⟩ hne2
          · exact h3
        have : (0 : ℚ) < (y.scaled : ℚ) := Nat.cast_pos.mpr hyz
        linarith
      · have : (0 : ℚ) < (x.scaled : ℚ) := Nat.cast_pos.mpr (Nat.pos_of_ne_zero hxz)
        linarith
    · intro h
      by_contra hc
      have hm : x.magnitude = 0 ∧ y.magnitude = 0 := by omega
      rw [← hx0, ← hy0] at hm
      rw [hm.1, hm.2] at h
      simp at h
  · omega


theorem F64.magnitude_eq_zero_iff (x : F64) : x.magnitude = 0 ↔ x.isZero = true := by
  have hFx : x.fraction.val < 2 ^ 52 := x.fraction.isLt
  simp only [F64.magnitude, F64.isZero, Bool.and_eq_true, beq_iff_eq]
  constructor
  · intro h
    have hE : x.exponent.val = 0 := by
      by_contra hc
      have := Nat.mul_le_mul_right (2 ^ 52) (show 1 ≤ x.exponent.val by omega)
      omega
    have hF : x.fraction.val = 0 := by
      rw [hE] at h
      omega
    exact ⟨Fin.ext hE, Fin.ext hF⟩
  · rintro ⟨hE, hF⟩
    rw [hE, hF]
    rfl

theorem F64.key_eq_iff (x y : F64) :
    x.key = y.key ↔ (x = y ∨ (x.isZero = true ∧ y.isZero = true)) := by
  have hx0 := F64.magnitude_eq_zero_iff x
  have hy0 := F64.magnitude_eq_zero_iff y
  constructor
  · intro h
    rw [F64.key_eq, F64.key_eq] at h
    by_cases hs : x.sign = y.sign
    · left
      have hm : x.magnitude = y.magnitude := by
        rw [hs] at h
        cases hy : y.sign <;> rw [hy] at h <;>
          simp only [Bool.false_eq_true, if_true, if_false] at h <;> omega
      obtain ⟨hE, hF⟩ := F64.eq_of_magnitude_eq hm
      cases x
      cases y
      simp only at hs hE hF
      rw [hs, hE, hF]
    · right
      have hm : x.magnitude = 0 ∧ y.magnitude = 0 := by
        cases hx : x.sign <;> cases hy : y.sign <;> rw [hx, hy] at h hs <;>
          simp only [Bool.false_eq_true, if_true, if_false, not_true_eq_false] at h hs <;>
          omega
      exact ⟨hx0.mp hm.1, hy0.mp hm.2⟩
  · rintro (h | ⟨h1, h2⟩)
    · rw [h]
    · rw [F64.key_eq, F64.key_eq, hx0.mpr h1, hy0.mpr h2]
      simp

theorem F64.key_eq_iff_toRat (x y : F64) : x.key = y.key ↔ x.toRat = y.toRat := by
  have h1 := F64.key_lt_iff x y
  have h2 := F64.key_lt_iff y x
  constructor
  · intro h
    have a1 : ¬ x.toRat < y.toRat := fun hc => by have := h1.mpr hc; omega
    have a2 : ¬ y.toRat < x.toRat := fun hc => by have := h2.mpr hc; omega
    exact le_antisymm (not_lt.mp a2) (not_lt.mp a1)
  · intro h
    have a1 : ¬ x.key < y.key := fun hc => by have := h1.mp hc; rw [h] at this; exact lt_irrefl _ this
    have a2 : ¬ y.key < x.key := fun hc => by have := h2.mp hc; rw [h] at this; exact lt_irrefl _ this
    omega

/-- On data that are not NaNs, Go's comparisons of `float64` are the comparisons of the
values. -/
theorem F64.compare_iff_toRat {x y : F64} (hx : x.isNaN = false) (hy : y.isNaN = false) :
    (F64.eq x y = true ↔ x.toRat = y.toRat) ∧
    (F64.lt x y = true ↔ x.toRat < y.toRat) ∧
    (F64.gt x y = true ↔ x.toRat > y.toRat) ∧
    (F64.le x y = true ↔ x.toRat ≤ y.toRat) ∧
    (F64.ge x y = true ↔ x.toRat ≥ y.toRat) := by
  have h1 := F64.key_lt_iff x y
  have h2 := F64.key_lt_iff y x
  have h3 := F64.key_eq_iff_toRat x y
  have h4 := F64.key_eq_iff x y
  refine ⟨?_, ?_, ?_, ?_, ?_⟩
  · simp only [F64.eq, hx, hy, Bool.not_false, Bool.true_and, Bool.or_eq_true,
      Bool.and_eq_true, beq_iff_eq]
    rw [← h3, h4]
  · simp only [F64.lt, hx, hy, Bool.not_false, Bool.true_and, decide_eq_true_eq]
    exact h1
  · simp only [F64.gt, hx, hy, Bool.not_false, Bool.true_and, decide_eq_true_eq]
    exact h2
  · simp only [F64.le, hx, hy, Bool.not_false, Bool.true_and, decide_eq_true_eq]
    rw [← not_lt, ← not_lt, h2]
  · simp only [F64.ge, hx, hy, Bool.not_false, Bool.true_and, decide_eq_true_eq]
    rw [ge_iff_le, ge_iff_le, ← not_lt, ← not_lt, h1]

/-- A comparison with a NaN is false. -/
theorem F64.compare_nan {x y : F64} (h : x.isNaN = true ∨ y.isNaN = true) :
    F64.eq x y = false ∧ F64.lt x y = false ∧ F64.gt x y = false ∧
      F64.le x y = false ∧ F64.ge x y = false := by
  rcases h with h | h <;> simp [F64.eq, F64.lt, F64.gt, F64.le, F64.ge, h]

/-! ## Equality of atoms -/

theorem F64.eq_iff_toRat (x y : F64) :
    F64.eq x y = true ↔ x.isNaN = false ∧ y.isNaN = false ∧ x.toRat = y.toRat := by
  cases hx : x.isNaN with
  | true => simp [(F64.compare_nan (Or.inl hx : x.isNaN = true ∨ y.isNaN = true)).1]
  | false =>
    cases hy : y.isNaN with
    | true => simp [(F64.compare_nan (Or.inr hy : x.isNaN = true ∨ y.isNaN = true)).1]
    | false => simpa using (F64.compare_iff_toRat hx hy).1

theorem F64.eq_iff_bits (x y : F64) :
    F64.eq x y = true ↔
      x.isNaN = false ∧ y.isNaN = false ∧ (x = y ∨ (x.isZero = true ∧ y.isZero = true)) := by
  simp only [F64.eq, Bool.and_eq_true, Bool.or_eq_true, Bool.not_eq_true', beq_iff_eq,
    and_assoc]

/-- C3, as the claim states it, fails for Numbers: the two Numbers hold one and the same
scalar, a NaN, and `compareFunc` returns `false` on them. -/
theorem compareFunc_atom_counterexample :
    (Value.Number F64.nan).typeOf = Variant.Number ∧ F64.nan = F64.nan ∧
      compareFunc [.Number F64.nan, .Number F64.nan] = .ok (.Boolean false) ∧
      ¬ (compareFunc [.Number F64.nan, .Number F64.nan] = .ok (.Boolean true) ↔
        F64.nan = F64.nan) :=
  ⟨rfl, rfl, rfl, fun h => by cases h.mpr rfl⟩

/-- C3, amended: two Symbols, two Booleans or two Strings compare to a Boolean that is
`true` exactly when the names, the truth values or the character sequences are equal; two
Numbers compare to a Boolean that is `true` exactly when neither scalar is a NaN and the
two stand for the same number, that is, when neither is a NaN and they are the same datum
or are both zeros. -/
theorem compareFunc_atom_spec (s s2 : String) (n n2 : F64) (p p2 : Bool) :
    (∃ r : Bool, compareFunc [.Symbol s, .Symbol s2] = .ok (.Boolean r) ∧
      (r = true ↔ s = s2)) ∧
    (∃ r : Bool, compareFunc [.Number n, .Number n2] = .ok (.Boolean r) ∧
      (r = true ↔ n.isNaN = false ∧ n2.isNaN = false ∧ n.toRat = n2.toRat) ∧
      (r = true ↔ n.isNaN = false ∧ n2.isNaN = false ∧
        (n = n2 ∨ (n.isZero = true ∧ n2.isZero = true)))) ∧
    (∃ r : Bool, compareFunc [.Boolean p, .Boolean p2] = .ok (.Boolean r) ∧
      (r = true ↔ p = p2)) ∧
    (∃ r : Bool, compareFunc [.String s, .String s2] = .ok (.Boolean r) ∧
      (r = true ↔ s = s2)) :=
  ⟨⟨_, compareArgs_Symbol s s2, by simp⟩,
    ⟨_, compareArgs_Number n n2, F64.eq_iff_toRat n n2, F64.eq_iff_bits n n2⟩,
    ⟨_, compareArgs_Boolean p p2, by simp⟩, ⟨_, compareArgs_String s s2, by simp⟩⟩

/-- Witness of the amended C3: `1` against `1` and `0` against `-0` compare `true`, `1`
against `2` compares `false`. -/
theorem compareFunc_atom_spec_witness :
    compareFunc [.Number F64.one, .Number F64.one] = .ok (.Boolean true) ∧
    compareFunc [.Number F64.zero, .Number F64.negZero] = .ok (.Boolean true) ∧
    compareFunc [.Number F64.one, .Number F64.two] = .ok (.Boolean false) := by
  obtain ⟨r1, h1, _, b1⟩ := (compareFunc_atom_spec "" "" F64.one F64.one true true).2.1
  obtain ⟨r2, h2, _, b2⟩ := (compareFunc_atom_spec "" "" F64.zero F64.negZero true true).2.1
  obtain ⟨r3, h3, _, b3⟩ := (compareFunc_atom_spec "" "" F64.one F64.two true true).2.1
  have e1 : r1 = true := b1.mpr ⟨rfl, rfl, Or.inl rfl⟩
  have e2 : r2 = true := b2.mpr ⟨rfl, rfl, Or.inr ⟨rfl, rfl⟩⟩
  have e3 : r3 = false := by
    cases r3 with
    | false => rfl
    | true =>
      have h := (b3.mp rfl).2.2
      revert h
      decide
  rw [e1] at h1
  rw [e2] at h2
  rw [e3] at h3
  exact ⟨h1, h2, h3⟩

/-! ## `count`, the numeric primitives, `slurp` -/

/-- C11: `count` applied to a value succeeds with a Number: for a List, the conversion of
its length to `float64`, which stands for exactly that length (a length is below `2 ^ 53`,
the run time allotting at most `2 ^ 48` bytes); for any other value, `0`.  So `count` of
the List that `list` builds from its arguments is the number of these arguments. -/
theorem CoreNS_count_spec (x : Value) (args : List Value) :
    (∀ l : List Value, x = .List l →
      CoreNS_count [x] = .ok (.Number (F64.ofNat l.length)) ∧
        (l.length < 2 ^ 53 →
          (F64.ofNat l.length).isNaN = false ∧ (F64.ofNat l.length).isInf = false ∧
            (F64.ofNat l.length).toRat = (l.length : ℚ))) ∧
    ((∀ l : List Value, x ≠ .List l) →
      CoreNS_count [x] = .ok (.Number F64.zero) ∧ F64.zero.toRat = 0) ∧
    (∃ l : List Value, CoreNS_list args = .ok (.List l) ∧
      CoreNS_count [.List l] = .ok (.Number (F64.ofNat args.length))) := by
  refine ⟨?_, ?_, args, rfl, rfl⟩
  · intro l hl
    subst hl
    exact ⟨rfl, fun h => F64.ofNat_exact l.length h⟩
  · intro hx
    refine ⟨?_, (F64.ofNat_exact 0 (by norm_num)).2.2.trans (by norm_num)⟩
    cases x with
    | List l => exact absurd rfl (hx l)
    | _ => rfl

/-- Witness of C11 on the List `(nil nil nil)`, of length 3, and on `nil`. -/
theorem CoreNS_count_spec_witness :
    (CoreNS_count [.List [.Nil, .Nil, .Nil]] = .ok (.Number F64.three) ∧
      F64.three.toRat = (([Value.Nil, Value.Nil, Value.Nil].length : Nat) : ℚ)) ∧
    CoreNS_count [.Nil] = .ok (.Number F64.zero) :=
  ⟨⟨((CoreNS_count_spec (.List [.Nil, .Nil, .Nil]) []).1 _ rfl).1,
      (((CoreNS_count_spec (.List [.Nil, .Nil, .Nil]) []).1 _ rfl).2 (by decide)).2.2⟩,
    ((CoreNS_count_spec .Nil []).2.1 (fun l h => by cases h)).1⟩

/-- C16: on two Numbers every binary numeric primitive succeeds: `+`, `-`, `*` and `/`
return the Number that the host's operator gives, `/` also when the divisor is zero, and
`<`, `>`, `<=` and `>=` return the Boolean of the host's comparison, which on Numbers that
are not NaNs is the comparison of their values and with a NaN is false. -/
theorem CoreNS_numeric_spec (fadd fsub fmul fdiv : F64 → F64 → F64) (a b : F64) :
    (CoreNS_add fadd [.Number a, .Number b] = .ok (.Number (fadd a b)) ∧
      CoreNS_sub fsub [.Number a, .Number b] = .ok (.Number (fsub a b)) ∧
      CoreNS_mul fmul [.Number a, .Number b] = .ok (.Number (fmul a b)) ∧
      CoreNS_div fdiv [.Number a, .Number b] = .ok (.Number (fdiv a b)) ∧
      CoreNS_div fdiv [.Number a, .Number F64.zero] = .ok (.Number (fdiv a F64.zero))) ∧
    (CoreNS_lt [.Number a, .Number b] = .ok (.Boolean (F64.lt a b)) ∧
      CoreNS_gt [.Number a, .Number b] = .ok (.Boolean (F64.gt a b)) ∧
      CoreNS_le [.Number a, .Number b] = .ok (.Boolean (F64.le a b)) ∧
      CoreNS_ge [.Number a, .Number b] = .ok (.Boolean (F64.ge a b))) ∧
    (a.isNaN = false → b.isNaN = false →
      (F64.lt a b = true ↔ a.toRat < b.toRat) ∧
      (F64.gt a b = true ↔ a.toRat > b.toRat) ∧
      (F64.le a b = true ↔ a.toRat ≤ b.toRat) ∧
      (F64.ge a b = true ↔ a.toRat ≥ b.toRat)) ∧
    (a.isNaN = true ∨ b.isNaN = true →
      F64.lt a b = false ∧ F64.gt a b = false ∧ F64.le a b = false ∧ F64.ge a b = false) :=
  ⟨⟨rfl, rfl, rfl, rfl, rfl⟩, ⟨rfl, rfl, rfl, rfl⟩,
    fun ha hb => (F64.compare_iff_toRat ha hb).2,
    fun h => (F64.compare_nan h).2⟩

/-- Witness of C16 on the Numbers `1` and `2`, and on a NaN and `2`; the host's arithmetic
plays no part in the comparisons. -/
theorem CoreNS_numeric_spec_witness :
    (F64.one.isNaN = false ∧ F64.two.isNaN = false ∧ F64.one.toRat < F64.two.toRat) ∧
    (F64.nan.isNaN = true ∧ F64.le F64.nan F64.two = false) :=
  ⟨⟨rfl, rfl,
      ((CoreNS_numeric_spec (fun x _ => x) (fun x _ => x) (fun x _ => x) (fun x _ => x)
        F64.one F64.two).2.2.1 rfl rfl).1.mp rfl⟩,
    rfl,
    ((CoreNS_numeric_spec (fun x _ => x) (fun x _ => x) (fun x _ => x) (fun x _ => x)
      F64.nan F64.two).2.2.2 (Or.inl rfl)).2.2.1⟩

/-- C17: on a String path `slurp` returns the error of the read, unchanged, when the read
fails, and the String of the contents when it succeeds; it fails exactly when the read
does. -/
theorem CoreNS_slurp_spec (readFile : String → Except String String) (p : String) :
    (∀ err : String, readFile p = .error err →
      CoreNS_slurp readFile [.String p] = .err err) ∧
    (∀ dat : String, readFile p = .ok dat →
      CoreNS_slurp readFile [.String p] = .ok (.String dat)) ∧
    ((∃ msg : String, CoreNS_slurp readFile [.String p] = .err msg) ↔
      ∃ err : String, readFile p = .error err) := by
  refine ⟨fun err h => ?_, fun dat h => ?_, ?_⟩
  · simp [CoreNS_slurp, h]
  · simp [CoreNS_slurp, h]
  · cases h : readFile p with
    | error err => simp [CoreNS_slurp, h]
    | ok dat => simp [CoreNS_slurp, h]

/-- Witness of C17: a file system in which no file can be read, and one in which every
file holds `(+ 1 2)`. -/
theorem CoreNS_slurp_spec_witness :
    CoreNS_slurp (fun _ => .error "no such file or directory") [.String "nowhere.mal"]
      = .err "no such file or directory" ∧
    CoreNS_slurp (fun _ => .ok "(+ 1 2)") [.String "a.mal"] = .ok (.String "(+ 1 2)") :=
  ⟨(CoreNS_slurp_spec (fun _ => .error "no such file or directory") "nowhere.mal").1 _ rfl,
    (CoreNS_slurp_spec (fun _ => .ok "(+ 1 2)") "a.mal").2.1 _ rfl⟩

/-- C19: on any two values `compareFunc` returns a Boolean: it returns no error, so the
branch for an unknown type is not taken, and it does not panic, so no recursive call of
the List case hands a nil result to the type assertion. -/
theorem compareFunc_total (a b : Value) :
    (∃ r : Bool, compareFunc [a, b] = .ok (.Boolean r)) ∧
    (∀ msg : String, compareFunc [a, b] ≠ .err msg) ∧
    (∀ msg : String, compareFunc [a, b] ≠ .panic msg) := by
  obtain ⟨r, hr⟩ := compareArgs_boolean a b
  rw [compareFunc_pair, hr]
  exact ⟨⟨r, rfl⟩, fun msg h => (by cases h), fun msg h => (by cases h)⟩

/-! ### joining renderings -/

theorem intercalate_go_append (sep : String) (l : List String) :
    ∀ x y : String, String.intercalate.go (x ++ y) sep l = x ++ String.intercalate.go y sep l := by
  induction l with
  | nil => intro x y; rfl
  | cons a l ih =>
    intro x y
    simp only [String.intercalate.go]
    rw [String.append_assoc, String.append_assoc, ih, String.append_assoc]

theorem intercalate_cons_cons (sep a b : String) (l : List String) :
    String.intercalate sep (a :: b :: l) = a ++ sep ++ String.intercalate sep (b :: l) := by
  simp only [String.intercalate, String.intercalate.go]
  rw [intercalate_go_append, String.append_assoc]

theorem writeSpaced_eq (render : Value → String) (len : Nat) (rest : List Value) :
    ∀ (i : Nat) (sb : String), i + rest.length = len →
      writeSpaced render len i rest sb
        = sb ++ String.intercalate " " (rest.map render) := by
  induction rest with
  | nil =>
    intro i sb _
    simp [writeSpaced, String.intercalate]
  | cons v rest ih =>
    intro i sb hlen
    cases rest with
    | nil =>
      have hi : ¬ ((i : Int) < (len : Int) - 1) := by
        simp at hlen
        omega
      simp [writeSpaced, hi, String.intercalate, String.intercalate.go]
    | cons w rest =>
      have hi : (i : Int) < (len : Int) - 1 := by
        simp at hlen
        omega
      have hlen2 : i + 1 + (w :: rest).length = len := by
        simp at hlen ⊢
        omega
      rw [writeSpaced]
      simp only [hi, if_true]
      rw [ih (i + 1) _ hlen2]
      simp only [List.map_cons]
      rw [intercalate_cons_cons, String.append_assoc, String.append_assoc,
        String.append_assoc]

theorem join_foldl_append (l : List String) :
    ∀ x y : String, List.foldl (fun r s => r ++ s) (x ++ y) l
      = x ++ List.foldl (fun r s => r ++ s) y l := by
  induction l with
  | nil => intro x y; rfl
  | cons a l ih =>
    intro x y
    simp only [List.foldl_cons]
    rw [String.append_assoc, ih]

theorem writeAll_eq (render : Value → String) (rest : List Value) :
    ∀ sb : String, writeAll render rest sb = sb ++ String.join (rest.map render) := by
  induction rest with
  | nil => intro sb; simp [writeAll, String.join]
  | cons v rest ih =>
    intro sb
    rw [writeAll, ih, List.map_cons, String.append_assoc]
    congr 1
    simp only [String.join, List.foldl_cons]
    rw [show ("" ++ render v) = render v ++ "" by simp, join_foldl_append]

/-! ### the printer -/

theorem printElems_eq_writeSpaced (formatFloat : F64 → String) (len : Nat)
    (rest : List Value) :
    ∀ (i : Nat) (sb : String),
      printElems formatFloat len i rest sb
        = writeSpaced (printAtom formatFloat) len i rest sb := by
  induction rest with
  | nil => intro i sb; simp [printElems, writeSpaced]
  | cons v rest ih =>
    intro i sb
    rw [printElems, writeSpaced]
    exact ih _ _

theorem printAtom_eq_PrString (formatFloat : F64 → String) (v : Value) :
    printAtom formatFloat v = PrString formatFloat v := by
  cases v <;> simp [PrString, printAtom]

theorem PrString_List_eq (formatFloat : F64 → String) (es : List Value) :
    PrString formatFloat (.List es)
      = "(" ++ String.intercalate " " (es.map (PrString formatFloat)) ++ ")" := by
  have h : printAtom formatFloat = PrString formatFloat :=
    funext (printAtom_eq_PrString formatFloat)
  simp only [PrString]
  rw [printElems_eq_writeSpaced, writeSpaced_eq _ _ _ _ _ (Nat.zero_add _), h]
  rfl

/-! ### the same tree -/

theorem F64.isNaN_of_isZero {x : F64} (h : x.isZero = true) : x.isNaN = false := by
  simp only [F64.isZero, Bool.and_eq_true, beq_iff_eq] at h
  simp [F64.isNaN, h.1]

theorem F64.eq_iff_canon {v w : F64} (hv : v.isNaN = false) :
    F64.eq v w = true ↔ v.canon = w.canon := by
  have hz0 : F64.zero.isZero = true := by decide
  unfold F64.eq F64.canon
  simp only [hv, Bool.not_false, Bool.true_and, Bool.and_eq_true, Bool.or_eq_true,
    Bool.not_eq_true', beq_iff_eq]
  constructor
  · rintro ⟨_, h | ⟨h1, h2⟩⟩
    · rw [h]
    · rw [if_pos h1, if_pos h2]
  · intro h
    by_cases zv : v.isZero = true
    · by_cases zw : w.isZero = true
      · exact ⟨F64.isNaN_of_isZero zw, Or.inr ⟨zv, zw⟩⟩
      · rw [if_pos zv, if_neg zw] at h
        rw [← h] at zw
        exact absurd hz0 zw
    · by_cases zw : w.isZero = true
      · rw [if_neg zv, if_pos zw] at h
        rw [h] at zv
        exact absurd hz0 zv
      · rw [if_neg zv, if_neg zw] at h
        exact ⟨h ▸ hv, Or.inl h⟩

theorem normalize_typeOf (a : Value) : (normalize a).typeOf = a.typeOf := by
  cases a <;> simp [normalize, Value.typeOf]

theorem normalizeList_length (xs : List Value) :
    (normalizeList xs).length = xs.length := by
  induction xs with
  | nil => simp [normalizeList]
  | cons x xs ih => simp [normalizeList, ih]

theorem compareLoop_iff_normalize (xs : List Value)
    (ih : ∀ x ∈ xs, hasFunction x = false → hasNaN x = false →
      ∀ b, (compareArgs x b = .ok (.Boolean true) ↔ normalize x = normalize b)) :
    hasFunctionList xs = false → hasNaNList xs = false →
      ∀ ys : List Value, xs.length = ys.length →
        (compareLoop xs ys = .ok (.Boolean true) ↔ normalizeList xs = normalizeList ys) := by
  induction xs with
  | nil =>
    intro _ _ ys hlen
    cases ys with
    | nil => simp [compareLoop_nil, normalizeList]
    | cons y ys => simp at hlen
  | cons x xs ihxs =>
    intro hF hN ys hlen
    cases ys with
    | nil => simp at hlen
    | cons y ys =>
      simp only [hasFunctionList, hasNaNList, Bool.or_eq_false_iff] at hF hN
      have hx := ih x (List.mem_cons_self x xs) hF.1 hN.1 y
      have hxs := ihxs (fun z hz => ih z (List.mem_cons_of_mem x hz)) hF.2 hN.2 ys
        (by simpa using hlen)
      simp only [normalizeList, List.cons.injEq]
      obtain ⟨r, hr⟩ := compareArgs_boolean x y
      cases r with
      | false =>
        rw [compareLoop_cons_of_false xs ys hr]
        rw [hr] at hx
        constructor
        · intro h; cases h
        · intro h
          have := hx.mpr h.1
          cases this
      | true =>
        rw [compareLoop_cons_of_true xs ys hr, hxs]
        exact ⟨fun h => ⟨hx.mp hr, h⟩, fun h => h.2⟩

theorem compareArgs_iff_normalize (a : Value) :
    hasFunction a = false → hasNaN a = false →
      ∀ b, (compareArgs a b = .ok (.Boolean true) ↔ normalize a = normalize b) := by
  induction a using value_induct with
  | hList vs ih =>
    intro hF hN b
    by_cases ht : (Value.List vs).typeOf = b.typeOf
    · cases b <;> simp [Value.typeOf] at ht
      rename_i ws
      simp only [hasFunction, hasNaN] at hF hN
      rw [compareArgs_List]
      simp only [normalize, Value.List.injEq]
      by_cases hlen : vs.length = ws.length
      · have hb : (vs.length != ws.length) = false := by simp [hlen]
        rw [hb]
        simp only [Bool.false_eq_true, if_false]
        exact compareLoop_iff_normalize vs ih hF hN ws hlen
      · have hb : (vs.length != ws.length) = true := by simp [hlen]
        rw [hb]
        simp only [if_true]
        constructor
        · intro h; cases h
        · intro h
          have := congrArg List.length h
          rw [normalizeList_length, normalizeList_length] at this
          exact absurd this hlen
    · rw [compareArgs_of_typeOf_ne ht]
      constructor
      · intro h; cases h
      · intro h
        have := congrArg Value.typeOf h
        rw [normalize_typeOf, normalize_typeOf] at this
        exact absurd this ht
  | hNumber v =>
    intro _ hN b
    simp only [hasNaN] at hN
    cases b with
    | Number w =>
      rw [compareArgs_Number]
      simp only [Result.ok.injEq, Value.Boolean.injEq, normalize, Value.Number.injEq]
      exact F64.eq_iff_canon hN
    | _ => simp [compareArgs, Value.typeOf, normalize]
  | hFunction f => intro hF; simp [hasFunction] at hF
  | hNil => intro _ _ b; cases b <;> simp [compareArgs, Value.typeOf, normalize]
  | _ v => intro _ _ b; cases b <;> simp [compareArgs, Value.typeOf, normalize]

theorem compareLoop_false_of_hasFunction (xs : List Value)
    (ih : ∀ x ∈ xs, hasFunction x = true → ∀ b, compareArgs x b = .ok (.Boolean false)) :
    hasFunctionList xs = true →
      ∀ ys : List Value, xs.length = ys.length →
        compareLoop xs ys = .ok (.Boolean false) := by
  induction xs with
  | nil => intro hF; simp [hasFunctionList] at hF
  | cons x xs ihxs =>
    intro hF ys hlen
    cases ys with
    | nil => simp at hlen
    | cons y ys =>
      obtain ⟨r, hr⟩ := compareArgs_boolean x y
      cases r with
      | false => exact compareLoop_cons_of_false xs ys hr
      | true =>
        rw [compareLoop_cons_of_true xs ys hr]
        simp only [hasFunctionList, Bool.or_eq_true] at hF
        rcases hF with hF | hF
        · have := ih x (List.mem_cons_self x xs) hF y
          rw [hr] at this
          cases this
        · exact ihxs (fun z hz => ih z (List.mem_cons_of_mem x hz)) hF ys
            (by simpa using hlen)

theorem compareArgs_false_of_hasFunction (a : Value) :
    hasFunction a = true → ∀ b, compareArgs a b = .ok (.Boolean false) := by
  induction a using value_induct with
  | hList vs ih =>
    intro hF b
    by_cases ht : (Value.List vs).typeOf = b.typeOf
    · cases b <;> simp [Value.typeOf] at ht
      rename_i ws
      simp only [hasFunction] at hF
      rw [compareArgs_List]
      by_cases hlen : vs.length = ws.length
      · have hb : (vs.length != ws.length) = false := by simp [hlen]
        rw [hb]
        simp only [Bool.false_eq_true, if_false]
        exact compareLoop_false_of_hasFunction vs ih hF ws hlen
      · simp [hlen]
    · exact compareArgs_of_typeOf_ne ht
  | hFunction f => intro _ b; exact compareArgs_Function f b
  | hNil => intro hF; simp [hasFunction] at hF
  | _ v => intro hF; simp [hasFunction] at hF

/-! ### the table -/

theorem CoreNS_names (h : Host) :
    (CoreNS h).map (fun e => e.1.value) = requiredNames := rfl

/-- Go's index expression finds nothing under a `*Symbol` allocated apart from the map
literal, whatever name it holds. -/
theorem mapIndex_other_allocation (h : Host) (addr : Nat) (name : String)
    (hfresh : 19 ≤ addr) : (mapIndex (CoreNS h) ⟨addr, name⟩).isNone = true := by
  have hne : ∀ k : Nat, k < 19 → (k == addr) = false := by
    intro k hk
    simp
    omega
  simp [mapIndex, CoreNS, List.find?, hne]

/-! ## The string primitives and the printer -/

/-- C12: `pr-str` succeeds on every argument list with the String of the readable
renderings of the arguments, in order, one space between two consecutive ones and none
before the first or after the last; with no argument the text is empty; renderings `1`,
`2`, `3` give `1 2 3`. -/
theorem CoreNS_prStr_spec (prString : Value → Bool → String) (args : List Value) :
    CoreNS_prStr prString args
      = .ok (.String (String.intercalate " " (args.map (fun v => prString v true)))) ∧
    CoreNS_prStr prString [] = .ok (.String "") ∧
    (∀ v1 v2 v3 : Value,
      prString v1 true = "1" → prString v2 true = "2" → prString v3 true = "3" →
        CoreNS_prStr prString [v1, v2, v3] = .ok (.String "1 2 3")) := by
  have key : ∀ l : List Value, CoreNS_prStr prString l
      = .ok (.String (String.intercalate " " (l.map (fun v => prString v true)))) := by
    intro l
    simp only [CoreNS_prStr]
    rw [writeSpaced_eq _ _ _ _ _ (Nat.zero_add _), String.empty_append]
  refine ⟨key args, rfl, fun v1 v2 v3 h1 h2 h3 => ?_⟩
  rw [key]
  simp only [List.map_cons, List.map_nil, h1, h2, h3]
  rfl

/-- Witness of C12 with the `PrString` of `printer.go` as renderer, on `1 2 3`. -/
theorem CoreNS_prStr_spec_witness :
    CoreNS_prStr
        (fun v _ => PrString (fun x => if x = F64.one then "1" else
          if x = F64.two then "2" else "3") v)
        [.Number F64.one, .Number F64.two, .Number F64.three]
      = .ok (.String "1 2 3") :=
  (CoreNS_prStr_spec _ []).2.2 _ _ _ rfl rfl rfl

/-- C13: `str` succeeds on every argument list with the String of the display renderings
of the arguments, in order and with nothing between them; with no argument the text is
empty; renderings `1`, `2`, `3` give `123`. -/
theorem CoreNS_str_spec (prString : Value → Bool → String) (args : List Value) :
    CoreNS_str prString args
      = .ok (.String (String.join (args.map (fun v => prString v false)))) ∧
    CoreNS_str prString [] = .ok (.String "") ∧
    (∀ v1 v2 v3 : Value,
      prString v1 false = "1" → prString v2 false = "2" → prString v3 false = "3" →
        CoreNS_str prString [v1, v2, v3] = .ok (.String "123")) := by
  have key : ∀ l : List Value, CoreNS_str prString l
      = .ok (.String (String.join (l.map (fun v => prString v false)))) := by
    intro l
    simp only [CoreNS_str]
    rw [writeAll_eq, String.empty_append]
  refine ⟨key args, rfl, fun v1 v2 v3 h1 h2 h3 => ?_⟩
  rw [key]
  simp only [List.map_cons, List.map_nil, h1, h2, h3]
  rfl

/-- Witness of C13 with the `PrString` of `printer.go` as renderer, on `1 2 3`. -/
theorem CoreNS_str_spec_witness :
    CoreNS_str
        (fun v _ => PrString (fun x => if x = F64.one then "1" else
          if x = F64.two then "2" else "3") v)
        [.Number F64.one, .Number F64.two, .Number F64.three]
      = .ok (.String "123") :=
  (CoreNS_str_spec _ []).2.2 _ _ _ rfl rfl rfl

/-- C14: `PrString` of a List is `(`, the `PrString` of its elements in order with one
space between two consecutive ones, and `)`; the elements that are Lists are rendered by
the same rule, and the empty List is `()`. -/
theorem PrString_List_spec (formatFloat : F64 → String) (es : List Value) :
    PrString formatFloat (.List es)
      = "(" ++ String.intercalate " " (es.map (PrString formatFloat)) ++ ")" ∧
    PrString formatFloat (.List []) = "()" ∧
    (∀ e : Value, printAtom formatFloat e = PrString formatFloat e) :=
  ⟨PrString_List_eq formatFloat es, rfl, printAtom_eq_PrString formatFloat⟩

/-- C15: `PrString` returns the placeholder text for every String, every Boolean, `Nil`
and every Function: `printAtom` has a case for Symbols, Numbers and Lists only. -/
theorem PrString_placeholder (formatFloat : F64 → String) (s : String) (b : Bool) (f : Nat) :
    PrString formatFloat (.String s) = "<TO STRING NOT IMPLEMENTED>" ∧
    PrString formatFloat (.Boolean b) = "<TO STRING NOT IMPLEMENTED>" ∧
    PrString formatFloat .Nil = "<TO STRING NOT IMPLEMENTED>" ∧
    PrString formatFloat (.Function f) = "<TO STRING NOT IMPLEMENTED>" :=
  ⟨rfl, rfl, rfl, rfl⟩

/-! ## The table -/

/-- C18: in `CoreNS` each of the nineteen required names is the name of exactly one key and
no key has another name; looking a name up by equality of the name gives the Function of
the entry with that name, which for each required name is the primitive of that name. -/
theorem CoreNS_table_spec (h : Host) :
    (∀ name : String,
      (CoreNS h).countP (fun e => e.1.value == name)
        = if name ∈ requiredNames then 1 else 0) ∧
    (∀ e ∈ CoreNS h, lookupName (CoreNS h) e.1.value = some e.2) ∧
    (∀ name ∈ requiredNames, ∃ e ∈ CoreNS h, e.1.value = name ∧
      lookupName (CoreNS h) name = some e.2) ∧
    lookupName (CoreNS h) "+" = some (silent (CoreNS_add h.fadd)) ∧
    lookupName (CoreNS h) "-" = some (silent (CoreNS_sub h.fsub)) ∧
    lookupName (CoreNS h) "*" = some (silent (CoreNS_mul h.fmul)) ∧
    lookupName (CoreNS h) "/" = some (silent (CoreNS_div h.fdiv)) ∧
    lookupName (CoreNS h) "list" = some (silent CoreNS_list) ∧
    lookupName (CoreNS h) "list?" = some (silent CoreNS_listQ) ∧
    lookupName (CoreNS h) "empty?" = some (silent CoreNS_emptyQ) ∧
    lookupName (CoreNS h) "count" = some (silent CoreNS_count) ∧
    lookupName (CoreNS h) "<" = some (silent CoreNS_lt) ∧
    lookupName (CoreNS h) ">" = some (silent CoreNS_gt) ∧
    lookupName (CoreNS h) "<=" = some (silent CoreNS_le) ∧
    lookupName (CoreNS h) ">=" = some (silent CoreNS_ge) ∧
    lookupName (CoreNS h) "pr-str" = some (silent (CoreNS_prStr h.prString)) ∧
    lookupName (CoreNS h) "str" = some (silent (CoreNS_str h.prString)) ∧
    lookupName (CoreNS h) "prn" = some (CoreNS_prn h.prString) ∧
    lookupName (CoreNS h) "println" = some (CoreNS_println h.prString) ∧
    lookupName (CoreNS h) "read-string" = some (silent (CoreNS_readString h.readStr)) ∧
    lookupName (CoreNS h) "slurp" = some (silent (CoreNS_slurp h.readFile)) ∧
    lookupName (CoreNS h) "=" = some (silent compareFunc) := by
  have hfound : ∀ e ∈ CoreNS h, lookupName (CoreNS h) e.1.value = some e.2 := by
    intro e he
    simp only [CoreNS, List.mem_cons, List.mem_singleton, List.not_mem_nil, or_false] at he
    rcases he with h1 | h1 | h1 | h1 | h1 | h1 | h1 | h1 | h1 | h1 | h1 | h1 | h1 | h1 |
      h1 | h1 | h1 | h1 | h1 <;> subst h1 <;> rfl
  refine ⟨?_, hfound, ?_, rfl, rfl, rfl, rfl, rfl, rfl, rfl, rfl, rfl, rfl, rfl, rfl,
    rfl, rfl, rfl, rfl, rfl, rfl, rfl⟩
  · intro name
    have hc : (CoreNS h).countP (fun e => e.1.value == name)
        = requiredNames.count name := by
      rw [← CoreNS_names h, List.count, List.countP_map]
      rfl
    rw [hc]
    exact List.count_eq_of_nodup (by decide)
  · intro name hname
    rw [← CoreNS_names h, List.mem_map] at hname
    obtain ⟨e, he, hen⟩ := hname
    exact ⟨e, he, hen, hen ▸ hfound e he⟩

/-! ## Structural identity -/

/-- C20: on two values that hold no Function and no NaN Number at any depth, `compareFunc`
returns `true` exactly when the two are the same tree once `-0` is read as `0`; and a value
that holds a Function at some depth compares `false` with every value. -/
theorem compareFunc_structural (a b : Value) :
    (hasFunction a = false → hasNaN a = false →
      hasFunction b = false → hasNaN b = false →
        (compareFunc [a, b] = .ok (.Boolean true) ↔ normalize a = normalize b)) ∧
    (hasFunction a = true → compareFunc [a, b] = .ok (.Boolean false)) :=
  ⟨fun hF hN _ _ => compareArgs_iff_normalize a hF hN b,
    fun hF => compareArgs_false_of_hasFunction a hF b⟩

/-- Witness of C20 on the Lists `(0 "x" (a))` and `(-0 "x" (a))`, and on a List that holds
a Function against itself. -/
theorem compareFunc_structural_witness :
    compareFunc [.List [.Number F64.zero, .String "x", .List [.Symbol "a"]],
        .List [.Number F64.negZero, .String "x", .List [.Symbol "a"]]]
      = .ok (.Boolean true) ∧
    compareFunc [.List [.Nil, .List [.Function 7]], .List [.Nil, .List [.Function 7]]]
      = .ok (.Boolean false) :=
  ⟨((compareFunc_structural (.List [.Number F64.zero, .String "x", .List [.Symbol "a"]])
      (.List [.Number F64.negZero, .String "x", .List [.Symbol "a"]])).1
        rfl rfl rfl rfl).mpr rfl,
    (compareFunc_structural (.List [.Nil, .List [.Function 7]])
      (.List [.Nil, .List [.Function 7]])).2 rfl⟩

end Mal
